import Mathlib

/-!
# Verification of the river-levels core (`src/components/Levels.tsx`)

A shallow embedding of the ingestion/merge/cache core of the river-levels
application: the point data model, the CSV row coalescing loop
(`parseCsvToPoints`), the merge engine (`mergePoints`), retention
(`prunePoints`), the refresh pipeline (`doRefresh`), and the status resolver
(`currentStatusPoint` / `currentStatusValue` / `statusText`).

Modelling conventions:
* JS numbers holding epoch-millisecond timestamps are modelled as `Int`
  (all arithmetic on them is exact at these magnitudes).
* Water heights are modelled as `ℚ`; the code never does arithmetic on
  heights, it only copies and order-compares them, so no floating-point
  behaviour is observable in the properties below.
* A JS `Map` (insertion-ordered, unique keys) is modelled as an association
  list with an in-place-replacing `setAssoc`; since every consumer sorts the
  value list by timestamp afterwards, insertion order is immaterial.
* `Array.prototype.sort` with comparator `(a, b) => a.timestamp - b.timestamp`
  is modelled as insertion sort by `timestamp ≤ timestamp`; all sorted lists
  in this development have pairwise-distinct timestamps, so any correct sort
  produces the same list.
-/

namespace River

/-- The `Point` record of the source: one timestamp's known water level(s).
`observed` / `forecast` are optional JS fields, modelled as `Option ℚ`. -/
structure Point where
  timestamp : Int
  timestampIso : String
  observed : Option ℚ := none
  forecast : Option ℚ := none
  deriving DecidableEq, Repr

/-- Extensionality for `Point`. -/
theorem Point.ext {p q : Point}
    (h1 : p.timestamp = q.timestamp) (h2 : p.timestampIso = q.timestampIso)
    (h3 : p.observed = q.observed) (h4 : p.forecast = q.forecast) : p = q := by
  cases p; cases q; simp_all

/-- `Map.prototype.get`: lookup in an association list. -/
def getAssoc : List (Int × Point) → Int → Option Point
  | [], _ => none
  | (k, v) :: rest, t => if k = t then some v else getAssoc rest t

/-- `Map.prototype.set`: replace in place if the key is present, else append. -/
def setAssoc : List (Int × Point) → Int → Point → List (Int × Point)
  | [], t, v => [(t, v)]
  | (k, w) :: rest, t, v =>
    if k = t then (t, v) :: rest else (k, w) :: setAssoc rest t v

/-- Comparator order used by every `Array.sort` in the source:
ascending by `timestamp`. -/
def tsLe (p q : Point) : Prop := p.timestamp ≤ q.timestamp

instance : DecidableRel tsLe := fun p q => Int.decLe p.timestamp q.timestamp

instance : IsTotal Point tsLe := ⟨fun p q => Int.le_total p.timestamp q.timestamp⟩

instance : IsTrans Point tsLe := ⟨fun _ _ _ h1 h2 => le_trans h1 h2⟩

/-- `arr.sort((a, b) => a.timestamp - b.timestamp)`. -/
def sortByTs (l : List Point) : List Point := List.insertionSort tsLe l

/-- `new Date(ts).toISOString()`: modelled as an injective textual rendering
of the timestamp; no claim depends on the actual ISO format. -/
def toISOString (ts : Int) : String := toString ts

/-- JS `String.prototype.toLowerCase` (a host primitive), modelled
character-wise. -/
def jsToLower (s : String) : String := ⟨s.data.map Char.toLower⟩

/-- JS `String.prototype.trim` (a host primitive): strip leading and
trailing whitespace. -/
def jsTrim (s : String) : String :=
  ⟨((s.data.dropWhile Char.isWhitespace).reverse.dropWhile Char.isWhitespace).reverse⟩

/-- The body of the incoming loop of `mergePoints`, applied to the current
map entry `cur` (or the fresh default point) and the incoming point `inc`:

```
if (inc.observed !== undefined) {
  cur.observed = inc.observed
  if (cur.forecast !== undefined) delete cur.forecast
}
if (inc.forecast !== undefined) {
  if (cur.observed === undefined) cur.forecast = inc.forecast
  else cur.forecast = cur.forecast ?? inc.forecast
}
```
-/
def applyIncoming (cur inc : Point) : Point :=
  let cur1 :=
    if inc.observed.isSome then { cur with observed := inc.observed, forecast := none }
    else cur
  match inc.forecast with
  | none => cur1
  | some f =>
    if cur1.observed.isNone then { cur1 with forecast := some f }
    else { cur1 with forecast := cur1.forecast.orElse (fun _ => some f) }

/-- One iteration of the incoming loop at map level:
`const cur = map.get(ts) ?? { timestamp: ts, timestampIso: inc.timestampIso }`
followed by the field updates of `applyIncoming`. -/
def stepO (o : Option Point) (inc : Point) : Point :=
  applyIncoming (o.getD { timestamp := inc.timestamp, timestampIso := inc.timestampIso }) inc

/-- `map.set(ts, cur)` after the update, i.e. one full iteration of the
incoming loop of `mergePoints`. -/
def mergeStep (m : List (Int × Point)) (inc : Point) : List (Int × Point) :=
  setAssoc m inc.timestamp (stepO (getAssoc m inc.timestamp) inc)

/-- The first loop of `mergePoints`:
`for (const p of existing) map.set(p.timestamp, { ...p })`. -/
def existMap (existing : List Point) : List (Int × Point) :=
  existing.foldl (fun m p => setAssoc m p.timestamp p) []

/-- The full merge map after both loops of `mergePoints`. -/
def mergeMap (existing incoming : List Point) : List (Int × Point) :=
  incoming.foldl mergeStep (existMap existing)

/-- `mergePoints(existing, incoming)` from the source: build the map from
`existing`, fold every incoming point in, then return the values sorted
ascending by timestamp. -/
def mergePoints (existing incoming : List Point) : List Point :=
  sortByTs ((mergeMap existing incoming).map Prod.snd)

/-- `prunePoints(pts, maxAgeMs)`: keep points with `timestamp >= now - maxAgeMs`
(the current instant `now` is passed explicitly; the source reads `Date.now()`). -/
def prunePoints (now : Int) (pts : List Point) (maxAgeMs : Int) : List Point :=
  let cutoff := now - maxAgeMs
  pts.filter (fun p => decide (cutoff ≤ p.timestamp))

def MS_PER_DAY : Int := 24 * 60 * 60 * 1000

def ONE_YEAR_MS : Int := 365 * MS_PER_DAY

/-- One raw CSV data row after field extraction, as consumed by the parse
loop of `parseCsvToPoints`: `timestamp` is the result of `Date.parse` on the
located timestamp cell (`none` when the cell is missing or unparseable),
`height` the result of `parseFloat` on the located height cell (`none` when
missing or `NaN`), and `type` the raw string of the located type cell
(`none` when missing, which the source defaults to `''`). -/
structure RawRow where
  timestamp : Option Int
  height : Option ℚ
  type : Option String
  deriving DecidableEq, Repr

/-- The body of the row loop of `parseCsvToPoints`:

```
if (!t || !h) continue            // modelled by `timestamp? / height?`
const type = (... ?? '').toString().trim().toLowerCase()
const existing = byTs.get(ts) ?? { timestamp: ts, timestampIso: ... }
if (type === 'observed') existing.observed = height
else if (type === 'forecast') existing.forecast = height
else existing.observed = existing.observed ?? height
byTs.set(ts, existing)
```
-/
def parseRow (m : List (Int × Point)) (row : RawRow) : List (Int × Point) :=
  match row.timestamp, row.height with
  | some ts, some height =>
    let ty := jsToLower (jsTrim (row.type.getD ""))
    let cur := (getAssoc m ts).getD { timestamp := ts, timestampIso := toISOString ts }
    let cur :=
      if ty = "observed" then { cur with observed := some height }
      else if ty = "forecast" then { cur with forecast := some height }
      else { cur with observed := cur.observed.orElse (fun _ => some height) }
    setAssoc m ts cur
  | _, _ => m

/-- The coalescing map built by the row loop of `parseCsvToPoints`. -/
def parseMap (rows : List RawRow) : List (Int × Point) :=
  rows.foldl parseRow []

/-- `parseCsvToPoints`: coalesce rows by timestamp, then
`Array.from(byTs.values()).sort((a, b) => a.timestamp - b.timestamp)`. -/
def parseCsvToPoints (rows : List RawRow) : List Point :=
  sortByTs ((parseMap rows).map Prod.snd)

/-- The component state touched by `doRefresh`: the in-memory `points`,
the `error` state, and the persisted cache slot written by `saveCache`. -/
structure ComponentState where
  points : List Point
  error : Option String
  cache : Option (List Point)
  deriving DecidableEq, Repr

/-- The outcome of the `fetch` of the CSV: `ok rows` models a successful
response whose body parses into the given raw rows; `failure msg` models a
network error or the `throw` on a non-success response status. -/
inductive FetchOutcome where
  | ok (rows : List RawRow)
  | failure (message : String)
  deriving DecidableEq, Repr

/-- `doRefresh`: on success, parse, merge into the current points, prune to
one year and persist the pruned list; on failure, set the error state and
leave points and cache untouched (the `catch` branch only calls `setError`). -/
def doRefresh (now : Int) (st : ComponentState) (outcome : FetchOutcome) : ComponentState :=
  match outcome with
  | .failure msg => { st with error := some msg }
  | .ok rows =>
    let incoming := parseCsvToPoints rows
    let merged := mergePoints st.points incoming
    let pruned := prunePoints now merged ONE_YEAR_MS
    { st with points := pruned, cache := some pruned, error := none }

def FOUR_HOURS_MS : Int := 4 * 60 * 60 * 1000

/-- The `reduce` of `currentStatusPoint`: the first point of the list whose
absolute distance to `now` is minimal (strictly closer points replace the
running candidate). Returns `none` on the empty list, where the source
short-circuits before calling `reduce`. -/
def closestPoint (now : Int) : List Point → Option Point
  | [] => none
  | p :: rest =>
    some (rest.foldl
      (fun prev curr =>
        if |curr.timestamp - now| < |prev.timestamp - now| then curr else prev) p)

/-- `currentStatusPoint`: the closest point, unless it is more than four
hours away from `now`, in which case data for "now" is considered missing. -/
def currentStatusPoint (now : Int) (points : List Point) : Option Point :=
  match closestPoint now points with
  | none => none
  | some closest =>
    if |closest.timestamp - now| > FOUR_HOURS_MS then none else some closest

/-- `currentStatusValue`: `currentStatusPoint ? (observed ?? forecast ?? null) : null`. -/
def currentStatusValue (now : Int) (points : List Point) : Option ℚ :=
  match currentStatusPoint now points with
  | none => none
  | some p => p.observed.orElse (fun _ => p.forecast)

/-- `isUnsafe`: `typeof value === 'number' ? value > safeLevel : false`. -/
def isUnsafe (now : Int) (points : List Point) (safeLevel : ℚ) : Bool :=
  match currentStatusValue now points with
  | none => false
  | some v => decide (safeLevel < v)

/-- `statusText`: `'Unknown'` when there is no current value, else the
unsafe/safe label (the numeric suffix produced by `toFixed(2)` is abstracted
away; no claim concerns it). -/
def statusText (now : Int) (points : List Point) (safeLevel : ℚ) : String :=
  match currentStatusValue now points with
  | none => "Unknown"
  | some _ =>
    if isUnsafe now points safeLevel then "Unsafe to row" else "Safe to row"

/-- First point of a sequence carrying the given timestamp. -/
def findAt (pts : List Point) (t : Int) : Option Point :=
  pts.find? (fun p => decide (p.timestamp = t))

/-- A point sequence with pairwise-distinct timestamps (the shape of every
parser output and of every persisted store). -/
abbrev NoDupTs (l : List Point) : Prop := (l.map Point.timestamp).Nodup

/-- Observed value recorded at a timestamp, if any. -/
def obsAt (pts : List Point) (t : Int) : Option ℚ :=
  (findAt pts t).bind Point.observed

/-- Every stored entry's point carries the entry's key as its timestamp
(invariant of every map built by the source). -/
def WFmap (m : List (Int × Point)) : Prop := ∀ e ∈ m, (e.2).timestamp = e.1

/-- The map's keys are pairwise distinct (JS `Map` invariant). -/
def NoDupKeys (m : List (Int × Point)) : Prop := (m.map Prod.fst).Nodup

/-- Last point of a sequence carrying the given timestamp: the value the
first loop of `mergePoints` leaves in the map at that key. -/
def lastAt : List Point → Int → Option Point
  | [], _ => none
  | p :: rest, k =>
    match lastAt rest k with
    | some v => some v
    | none => if p.timestamp = k then some p else none

/-- Strict ascending order on timestamps: the ordering invariant of every
merge and parse output. -/
def tsLt (p q : Point) : Prop := p.timestamp < q.timestamp

instance : IsAntisymm Point tsLt :=
  ⟨fun _ _ h1 h2 => absurd (lt_trans h1 h2) (lt_irrefl _)⟩

/-- The value the merge map holds at key `k`: the last existing point at
`k` folded with every incoming point at `k`, in order. -/
def mergeValueAt (existing incoming : List Point) (k : Int) : Option Point :=
  (incoming.filter (fun i => decide (i.timestamp = k))).foldl
    (fun o i => some (stepO o i)) (lastAt existing k)

/-- Concrete rational 1.5 (= 3/2). -/
def q15 : ℚ := ⟨3, 2, by decide, by decide⟩

/-- Concrete rational 1.9 (= 19/10), the default safe level. -/
def q19 : ℚ := ⟨19, 10, by decide, by decide⟩

/-- Concrete rational 2.5 (= 5/2). -/
def q25 : ℚ := ⟨5, 2, by decide, by decide⟩

/-- Concrete rational 3.5 (= 7/2). -/
def q35 : ℚ := ⟨7, 2, by decide, by decide⟩

/-! ### Association-list (JS `Map`) lemmas -/

theorem getAssoc_setAssoc (m : List (Int × Point)) (t s : Int) (v : Point) :
    getAssoc (setAssoc m t v) s = if t = s then some v else getAssoc m s := by
  induction m with
  | nil => simp [setAssoc, getAssoc]
  | cons e rest ih =>
    obtain ⟨k, w⟩ := e
    by_cases hk : k = t
    · subst hk
      by_cases hs : k = s <;> simp [setAssoc, getAssoc, hs]
    · by_cases hs : k = s
      · subst hs
        have ht : ¬ t = k := fun h => hk h.symm
        simp [setAssoc, getAssoc, hk, ht]
      · simp [setAssoc, getAssoc, hk, hs, ih]

theorem mem_keys_setAssoc (m : List (Int × Point)) (t k : Int) (v : Point) :
    k ∈ (setAssoc m t v).map Prod.fst ↔ k = t ∨ k ∈ m.map Prod.fst := by
  induction m with
  | nil => simp [setAssoc]
  | cons e rest ih =>
    obtain ⟨a, w⟩ := e
    by_cases ha : a = t
    · subst ha
      simp [setAssoc]
    · simp [setAssoc, ha, ih]
      tauto

theorem nodupKeys_setAssoc (m : List (Int × Point)) (t : Int) (v : Point)
    (h : NoDupKeys m) : NoDupKeys (setAssoc m t v) := by
  induction m with
  | nil => simp [NoDupKeys, setAssoc]
  | cons e rest ih =>
    obtain ⟨a, w⟩ := e
    simp only [NoDupKeys, List.map_cons, List.nodup_cons] at h
    by_cases ha : a = t
    · subst ha
      simpa [NoDupKeys, setAssoc] using h
    · have hrest := ih h.2
      simp only [NoDupKeys, setAssoc, ha, if_false, List.map_cons, List.nodup_cons]
      refine ⟨fun hmem => ?_, hrest⟩
      rcases (mem_keys_setAssoc rest t a v).mp hmem with h1 | h1
      · exact ha h1
      · exact h.1 h1

theorem wfmap_setAssoc (m : List (Int × Point)) (t : Int) (v : Point)
    (h : WFmap m) (hv : v.timestamp = t) : WFmap (setAssoc m t v) := by
  induction m with
  | nil =>
    intro e he
    simp [setAssoc] at he
    subst he
    exact hv
  | cons a rest ih =>
    obtain ⟨k, w⟩ := a
    have hw : w.timestamp = k := h (k, w) (by simp)
    have hrest : WFmap rest := fun e he => h e (by simp [he])
    intro e he
    by_cases hk : k = t
    · subst hk
      simp [setAssoc] at he
      rcases he with he | he
      · subst he; exact hv
      · exact hrest e he
    · simp [setAssoc, hk] at he
      rcases he with he | he
      · subst he; exact hw
      · exact ih hrest e he

theorem getAssoc_eq_none_iff (m : List (Int × Point)) (k : Int) :
    getAssoc m k = none ↔ k ∉ m.map Prod.fst := by
  induction m with
  | nil => simp [getAssoc]
  | cons e rest ih =>
    obtain ⟨a, w⟩ := e
    by_cases ha : a = k
    · subst ha
      simp [getAssoc]
    · simp only [getAssoc, ha, if_false, ih, List.map_cons, List.mem_cons]
      constructor
      · intro hn hk
        rcases hk with hk | hk
        · exact ha hk.symm
        · exact hn hk
      · intro hn
        exact fun hk => hn (Or.inr hk)

theorem getAssoc_mem (m : List (Int × Point)) (k : Int) (v : Point)
    (h : getAssoc m k = some v) : (k, v) ∈ m := by
  induction m with
  | nil => simp [getAssoc] at h
  | cons e rest ih =>
    obtain ⟨a, w⟩ := e
    by_cases ha : a = k
    · subst ha
      simp [getAssoc] at h
      simp [h]
    · simp [getAssoc, ha] at h
      simp [ih h]

theorem getAssoc_of_mem (m : List (Int × Point)) (k : Int) (v : Point)
    (hnd : NoDupKeys m) (h : (k, v) ∈ m) : getAssoc m k = some v := by
  induction m with
  | nil => simp at h
  | cons e rest ih =>
    obtain ⟨a, w⟩ := e
    simp only [NoDupKeys, List.map_cons, List.nodup_cons] at hnd
    rcases List.mem_cons.mp h with he | he
    · cases he
      simp [getAssoc]
    · have hk : a ≠ k := by
        intro hak
        subst hak
        exact hnd.1 (List.mem_map.mpr ⟨(a, v), he, rfl⟩)
      simp [getAssoc, hk, ih hnd.2 he]

theorem mem_values_iff (m : List (Int × Point)) (p : Point)
    (hwf : WFmap m) (hnd : NoDupKeys m) :
    p ∈ m.map Prod.snd ↔ getAssoc m p.timestamp = some p := by
  constructor
  · intro h
    obtain ⟨e, hmem, hv⟩ := List.mem_map.mp h
    obtain ⟨k, v⟩ := e
    simp only at hv
    have hts : v.timestamp = k := hwf (k, v) hmem
    rw [← hv, hts]
    exact getAssoc_of_mem m k v hnd hmem
  · intro h
    have hmem := getAssoc_mem m p.timestamp p h
    exact List.mem_map.mpr ⟨(p.timestamp, p), hmem, rfl⟩

/-! ### Sorting lemmas -/

theorem sortByTs_perm (l : List Point) : List.Perm (sortByTs l) l :=
  List.perm_insertionSort tsLe l

theorem sortByTs_sorted (l : List Point) : List.Sorted tsLe (sortByTs l) :=
  List.sorted_insertionSort tsLe l

theorem mem_sortByTs (l : List Point) (p : Point) : p ∈ sortByTs l ↔ p ∈ l :=
  (sortByTs_perm l).mem_iff

theorem pairwise_lt_of_sorted_nodup (l : List Point)
    (hs : List.Sorted tsLe l) (hnd : (l.map Point.timestamp).Nodup) :
    List.Pairwise tsLt l := by
  have hne : List.Pairwise (fun p q : Point => p.timestamp ≠ q.timestamp) l :=
    List.pairwise_map.mp hnd
  exact (hs.and hne).imp (fun h => lt_of_le_of_ne h.1 h.2)

theorem nodup_of_pairwise_lt (l : List Point) (h : List.Pairwise tsLt l) :
    l.Nodup :=
  h.imp (fun hlt heq => absurd (heq ▸ hlt) (lt_irrefl _))

theorem eq_of_pairwise_lt_of_mem_iff (l1 l2 : List Point)
    (h1 : List.Pairwise tsLt l1) (h2 : List.Pairwise tsLt l2)
    (hm : ∀ p, p ∈ l1 ↔ p ∈ l2) : l1 = l2 := by
  have hp : List.Perm l1 l2 :=
    (List.perm_ext_iff_of_nodup (nodup_of_pairwise_lt _ h1)
      (nodup_of_pairwise_lt _ h2)).mpr hm
  exact List.eq_of_perm_of_sorted hp h1 h2

/-! ### Characterization of the maps built by the source loops -/

theorem lastAt_mem (E : List Point) (k : Int) (v : Point)
    (h : lastAt E k = some v) : v ∈ E ∧ v.timestamp = k := by
  induction E with
  | nil => simp [lastAt] at h
  | cons p rest ih =>
    simp only [lastAt] at h
    cases hr : lastAt rest k with
    | some w =>
      rw [hr] at h
      simp only [Option.some.injEq] at h
      subst h
      obtain ⟨h1, h2⟩ := ih hr
      exact ⟨List.mem_cons_of_mem p h1, h2⟩
    | none =>
      rw [hr] at h
      by_cases hp : p.timestamp = k
      · rw [if_pos hp] at h
        simp only [Option.some.injEq] at h
        subst h
        exact ⟨List.mem_cons_self _ _, hp⟩
      · rw [if_neg hp] at h
        exact absurd h (by simp)

theorem lastAt_eq_none_iff (E : List Point) (k : Int) :
    lastAt E k = none ↔ ∀ p ∈ E, p.timestamp ≠ k := by
  induction E with
  | nil => simp [lastAt]
  | cons p rest ih =>
    simp only [lastAt]
    cases hr : lastAt rest k with
    | some w =>
      constructor
      · intro h; exact absurd h (by simp)
      · intro h
        obtain ⟨h1, h2⟩ := lastAt_mem rest k w hr
        exact absurd h2 (h w (List.mem_cons_of_mem p h1))
    | none =>
      have hrest := ih.mp hr
      by_cases hp : p.timestamp = k
      · rw [if_pos hp]
        constructor
        · intro h; exact absurd h (by simp)
        · intro h
          exact absurd hp (h p (List.mem_cons_self p rest))
      · rw [if_neg hp]
        constructor
        · intro _ q hq
          rcases List.mem_cons.mp hq with h1 | h1
          · subst h1; exact hp
          · exact hrest q h1
        · intro _; rfl

theorem getAssoc_existMap_aux (E : List Point) (m : List (Int × Point)) (k : Int) :
    getAssoc (E.foldl (fun m p => setAssoc m p.timestamp p) m) k =
      match lastAt E k with
      | some v => some v
      | none => getAssoc m k := by
  induction E generalizing m with
  | nil => simp [lastAt]
  | cons p rest ih =>
    simp only [List.foldl_cons, ih, lastAt]
    cases hr : lastAt rest k with
    | some v => simp
    | none =>
      by_cases hp : p.timestamp = k
      · simp [hp, getAssoc_setAssoc]
      · simp [hp, getAssoc_setAssoc]

theorem getAssoc_existMap (E : List Point) (k : Int) :
    getAssoc (existMap E) k = lastAt E k := by
  have h := getAssoc_existMap_aux E [] k
  simp only [existMap] at h ⊢
  rw [h]
  cases lastAt E k <;> simp [getAssoc]

theorem getAssoc_foldl_mergeStep (I : List Point) (m : List (Int × Point)) (k : Int) :
    getAssoc (I.foldl mergeStep m) k =
      (I.filter (fun i => decide (i.timestamp = k))).foldl
        (fun o i => some (stepO o i)) (getAssoc m k) := by
  induction I generalizing m with
  | nil => simp
  | cons i rest ih =>
    simp only [List.foldl_cons, List.filter_cons]
    by_cases hi : i.timestamp = k
    · simp only [hi, decide_True, List.foldl_cons, ih]
      have hg : getAssoc (mergeStep m i) k = some (stepO (getAssoc m k) i) := by
        simp [mergeStep, getAssoc_setAssoc, hi]
      rw [hg]
      simp
    · simp only [hi, decide_False, ih]
      have hg : getAssoc (mergeStep m i) k = getAssoc m k := by
        simp [mergeStep, getAssoc_setAssoc, hi]
      rw [hg]
      simp

theorem getAssoc_mergeMap (E I : List Point) (k : Int) :
    getAssoc (mergeMap E I) k = mergeValueAt E I k := by
  simp [mergeMap, mergeValueAt, getAssoc_foldl_mergeStep, getAssoc_existMap]

/-! ### Field-level characterization of the merge update -/

theorem applyIncoming_timestamp (c i : Point) :
    (applyIncoming c i).timestamp = c.timestamp := by
  unfold applyIncoming
  cases hf : i.forecast <;> cases ho : i.observed <;>
    simp [ho, hf] <;> split <;> simp

theorem applyIncoming_timestampIso (c i : Point) :
    (applyIncoming c i).timestampIso = c.timestampIso := by
  unfold applyIncoming
  cases hf : i.forecast <;> cases ho : i.observed <;>
    simp [ho, hf] <;> split <;> simp

theorem applyIncoming_observed (c i : Point) :
    (applyIncoming c i).observed = if i.observed.isSome then i.observed else c.observed := by
  unfold applyIncoming
  cases hf : i.forecast <;> cases ho : i.observed <;>
    simp [ho, hf] <;> split <;> simp

theorem applyIncoming_forecast_of_observed (c i : Point)
    (h : i.observed.isSome) : (applyIncoming c i).forecast = i.forecast := by
  unfold applyIncoming
  cases ho : i.observed with
  | none => rw [ho] at h; simp at h
  | some v =>
    cases hf : i.forecast <;> simp [ho, hf, Option.orElse]

theorem applyIncoming_forecast_none_none (c i : Point)
    (ho : i.observed = none) (hf : i.forecast = none) :
    (applyIncoming c i).forecast = c.forecast := by
  unfold applyIncoming
  simp [ho, hf]

theorem applyIncoming_forecast_none_some (c i : Point) (f : ℚ)
    (ho : i.observed = none) (hf : i.forecast = some f) :
    (applyIncoming c i).forecast =
      if c.observed.isNone then some f else c.forecast.orElse (fun _ => some f) := by
  unfold applyIncoming
  simp only [ho, Option.isSome_none, Bool.false_eq_true, if_false, hf]
  split <;> simp

/-! ### Map invariants of the source loops -/

theorem wfmap_existMap_aux (E : List Point) (m : List (Int × Point)) (h : WFmap m) :
    WFmap (E.foldl (fun m p => setAssoc m p.timestamp p) m) := by
  induction E generalizing m with
  | nil => exact h
  | cons p rest ih => exact ih _ (wfmap_setAssoc m p.timestamp p h rfl)

theorem nodup_existMap_aux (E : List Point) (m : List (Int × Point)) (h : NoDupKeys m) :
    NoDupKeys (E.foldl (fun m p => setAssoc m p.timestamp p) m) := by
  induction E generalizing m with
  | nil => exact h
  | cons p rest ih => exact ih _ (nodupKeys_setAssoc m p.timestamp p h)

theorem wfmap_existMap (E : List Point) : WFmap (existMap E) :=
  wfmap_existMap_aux E [] (fun e he => by simp at he)

theorem nodupKeys_existMap (E : List Point) : NoDupKeys (existMap E) :=
  nodup_existMap_aux E [] (by simp [NoDupKeys])

theorem stepO_timestamp (o : Option Point) (i : Point)
    (h : ∀ v, o = some v → v.timestamp = i.timestamp) :
    (stepO o i).timestamp = i.timestamp := by
  cases o with
  | none => simp [stepO, applyIncoming_timestamp]
  | some v => simp [stepO, applyIncoming_timestamp, h v rfl]

theorem wfmap_mergeStep (m : List (Int × Point)) (i : Point) (h : WFmap m) :
    WFmap (mergeStep m i) := by
  apply wfmap_setAssoc _ _ _ h
  apply stepO_timestamp
  intro v hv
  exact h _ (getAssoc_mem m i.timestamp v hv)

theorem nodup_mergeStep (m : List (Int × Point)) (i : Point) (h : NoDupKeys m) :
    NoDupKeys (mergeStep m i) :=
  nodupKeys_setAssoc _ _ _ h

theorem wfmap_foldl_mergeStep (I : List Point) (m : List (Int × Point)) (h : WFmap m) :
    WFmap (I.foldl mergeStep m) := by
  induction I generalizing m with
  | nil => exact h
  | cons i rest ih => exact ih _ (wfmap_mergeStep m i h)

theorem nodup_foldl_mergeStep (I : List Point) (m : List (Int × Point)) (h : NoDupKeys m) :
    NoDupKeys (I.foldl mergeStep m) := by
  induction I generalizing m with
  | nil => exact h
  | cons i rest ih => exact ih _ (nodup_mergeStep m i h)

theorem wfmap_mergeMap (E I : List Point) : WFmap (mergeMap E I) :=
  wfmap_foldl_mergeStep I (existMap E) (wfmap_existMap E)

theorem nodup_mergeMap (E I : List Point) : NoDupKeys (mergeMap E I) :=
  nodup_foldl_mergeStep I (existMap E) (nodupKeys_existMap E)

theorem tsNodup_values (m : List (Int × Point)) (hwf : WFmap m) (hnd : NoDupKeys m) :
    ((m.map Prod.snd).map Point.timestamp).Nodup := by
  have heq : (m.map Prod.snd).map Point.timestamp = m.map Prod.fst := by
    rw [List.map_map]
    exact List.map_congr_left (fun e he => hwf e he)
  rw [heq]
  exact hnd

theorem tsNodup_sortByTs_values (m : List (Int × Point))
    (hwf : WFmap m) (hnd : NoDupKeys m) :
    ((sortByTs (m.map Prod.snd)).map Point.timestamp).Nodup := by
  have hperm : List.Perm ((sortByTs (m.map Prod.snd)).map Point.timestamp)
      ((m.map Prod.snd).map Point.timestamp) := (sortByTs_perm _).map _
  exact hperm.nodup_iff.mpr (tsNodup_values m hwf hnd)

theorem pairwise_lt_sortByTs_values (m : List (Int × Point))
    (hwf : WFmap m) (hnd : NoDupKeys m) :
    List.Pairwise tsLt (sortByTs (m.map Prod.snd)) :=
  pairwise_lt_of_sorted_nodup _ (sortByTs_sorted _) (tsNodup_sortByTs_values m hwf hnd)

theorem mem_sorted_values_iff (m : List (Int × Point)) (p : Point)
    (hwf : WFmap m) (hnd : NoDupKeys m) :
    p ∈ sortByTs (m.map Prod.snd) ↔ getAssoc m p.timestamp = some p := by
  rw [mem_sortByTs]
  exact mem_values_iff m p hwf hnd

theorem findAt_of_mem_tsNodup (l : List Point) (t : Int) (v : Point)
    (hnd : (l.map Point.timestamp).Nodup)
    (hmem : v ∈ l) (hts : v.timestamp = t) : findAt l t = some v := by
  induction l with
  | nil => simp at hmem
  | cons p rest ih =>
    simp only [List.map_cons, List.nodup_cons] at hnd
    by_cases hp : p.timestamp = t
    · have hv : v = p := by
        rcases List.mem_cons.mp hmem with h1 | h1
        · exact h1
        · exact absurd (List.mem_map.mpr ⟨v, h1, hts.trans hp.symm⟩) hnd.1
      subst hv
      simp [findAt, List.find?, hp]
    · have hv : v ∈ rest := by
        rcases List.mem_cons.mp hmem with h1 | h1
        · subst h1; exact absurd hts hp
        · exact h1
      have := ih hnd.2 hv
      simp only [findAt, List.find?] at this ⊢
      rw [decide_eq_false hp]
      exact this

theorem findAt_eq_getAssoc (m : List (Int × Point)) (t : Int)
    (hwf : WFmap m) (hnd : NoDupKeys m) :
    findAt (sortByTs (m.map Prod.snd)) t = getAssoc m t := by
  cases hg : getAssoc m t with
  | some v =>
    have hpair := getAssoc_mem m t v hg
    have hts : v.timestamp = t := hwf (t, v) hpair
    have hmem : v ∈ sortByTs (m.map Prod.snd) := by
      rw [mem_sorted_values_iff m v hwf hnd, hts]
      exact hg
    exact findAt_of_mem_tsNodup _ t v (tsNodup_sortByTs_values m hwf hnd) hmem hts
  | none =>
    rw [getAssoc_eq_none_iff] at hg
    apply List.find?_eq_none.mpr
    intro p hp
    simp only [decide_eq_true_eq]
    intro hpt
    have := (mem_sorted_values_iff m p hwf hnd).mp hp
    rw [hpt] at this
    exact hg (List.mem_map.mpr ⟨(t, p), getAssoc_mem m t p this, rfl⟩)

/-! ### The merge output, pointwise -/

theorem mem_mergePoints_iff (E I : List Point) (p : Point) :
    p ∈ mergePoints E I ↔ mergeValueAt E I p.timestamp = some p := by
  rw [mergePoints, mem_sorted_values_iff _ p (wfmap_mergeMap E I) (nodup_mergeMap E I),
    getAssoc_mergeMap]

theorem pairwise_lt_mergePoints (E I : List Point) :
    List.Pairwise tsLt (mergePoints E I) :=
  pairwise_lt_sortByTs_values _ (wfmap_mergeMap E I) (nodup_mergeMap E I)

theorem findAt_mergePoints (E I : List Point) (t : Int) :
    findAt (mergePoints E I) t = mergeValueAt E I t := by
  rw [mergePoints, findAt_eq_getAssoc _ t (wfmap_mergeMap E I) (nodup_mergeMap E I),
    getAssoc_mergeMap]

/-! ### Fold invariants of the incoming update, and absorption -/

theorem foldl_stepO_some (l : List Point) (e : Point) :
    l.foldl (fun o i => some (stepO o i)) (some e) = some (l.foldl applyIncoming e) := by
  induction l generalizing e with
  | nil => rfl
  | cons i rest ih =>
    simp only [List.foldl_cons]
    rw [show stepO (some e) i = applyIncoming e i from rfl, ih]

theorem foldl_applyIncoming_inv (l : List Point) (e : Point) :
    (l.foldl applyIncoming e).timestamp = e.timestamp ∧
    (l.foldl applyIncoming e).timestampIso = e.timestampIso ∧
    ((l.foldl applyIncoming e).observed = none → e.observed = none) ∧
    ((l.foldl applyIncoming e).observed = none →
      (l.foldl applyIncoming e).forecast = none → e.forecast = none) := by
  induction l generalizing e with
  | nil => exact ⟨rfl, rfl, fun h => h, fun _ h => h⟩
  | cons i rest ih =>
    simp only [List.foldl_cons]
    obtain ⟨h1, h2, h3, h4⟩ := ih (applyIncoming e i)
    refine ⟨h1.trans (applyIncoming_timestamp e i),
      h2.trans (applyIncoming_timestampIso e i), ?_, ?_⟩
    · intro h
      have ho := h3 h
      rw [applyIncoming_observed] at ho
      by_cases hio : i.observed.isSome
      · rw [if_pos hio] at ho
        rw [ho] at hio
        simp at hio
      · rw [if_neg hio] at ho
        exact ho
    · intro h hf
      have ho := h3 h
      have hfc := h4 h hf
      rw [applyIncoming_observed] at ho
      by_cases hio : i.observed.isSome
      · rw [if_pos hio] at ho
        rw [ho] at hio
        simp at hio
      · rw [if_neg hio] at ho
        have hione : i.observed = none := by
          cases hoi : i.observed
          · rfl
          · rw [hoi] at hio; simp at hio
        cases hif : i.forecast with
        | none => rw [applyIncoming_forecast_none_none e i hione hif] at hfc; exact hfc
        | some f =>
          rw [applyIncoming_forecast_none_some e i f hione hif] at hfc
          by_cases heo : e.observed.isNone
          · rw [if_pos heo] at hfc
            simp at hfc
          · rw [if_neg heo] at hfc
            cases hef : e.forecast with
            | none => rfl
            | some g => rw [hef] at hfc; simp [Option.orElse] at hfc

theorem applyIncoming_absorb (l : List Point) (e : Point) :
    applyIncoming e (l.foldl applyIncoming e) = l.foldl applyIncoming e := by
  obtain ⟨h1, h2, h3, h4⟩ := foldl_applyIncoming_inv l e
  set m := l.foldl applyIncoming e with hm
  apply Point.ext
  · rw [applyIncoming_timestamp, h1]
  · rw [applyIncoming_timestampIso, h2]
  · rw [applyIncoming_observed]
    by_cases hmo : m.observed.isSome
    · rw [if_pos hmo]
    · rw [if_neg hmo]
      have hmone : m.observed = none := by
        cases h : m.observed
        · rfl
        · rw [h] at hmo; simp at hmo
      rw [hmone, h3 hmone]
  · by_cases hmo : m.observed.isSome
    · rw [applyIncoming_forecast_of_observed e m hmo]
    · have hmone : m.observed = none := by
        cases h : m.observed
        · rfl
        · rw [h] at hmo; simp at hmo
      cases hmf : m.forecast with
      | none =>
        rw [applyIncoming_forecast_none_none e m hmone hmf, h4 hmone hmf]
      | some f =>
        rw [applyIncoming_forecast_none_some e m f hmone hmf]
        have heo : e.observed.isNone := by
          rw [h3 hmone]; rfl
        rw [if_pos heo]

theorem filter_ts_eq_singleton (l : List Point) (k : Int) (v : Point)
    (hnd : (l.map Point.timestamp).Nodup) (hmem : v ∈ l) (hts : v.timestamp = k) :
    l.filter (fun i => decide (i.timestamp = k)) = [v] := by
  induction l with
  | nil => simp at hmem
  | cons p rest ih =>
    simp only [List.map_cons, List.nodup_cons] at hnd
    by_cases hp : p.timestamp = k
    · have hv : v = p := by
        rcases List.mem_cons.mp hmem with h1 | h1
        · exact h1
        · exact absurd (List.mem_map.mpr ⟨v, h1, hts.trans hp.symm⟩) hnd.1
      subst hv
      rw [List.filter_cons, if_pos (by simpa using hp)]
      have hnil : rest.filter (fun i => decide (i.timestamp = k)) = [] := by
        apply List.filter_eq_nil.mpr
        intro q hq
        simp only [decide_eq_true_eq]
        intro hqt
        exact hnd.1 (List.mem_map.mpr ⟨q, hq, hqt.trans hp.symm⟩)
      rw [hnil]
    · have hv : v ∈ rest := by
        rcases List.mem_cons.mp hmem with h1 | h1
        · subst h1; exact absurd hts hp
        · exact h1
      rw [List.filter_cons, if_neg (by simpa using hp)]
      exact ih hnd.2 hv

theorem tsNodup_mergePoints (E I : List Point) :
    ((mergePoints E I).map Point.timestamp).Nodup :=
  tsNodup_sortByTs_values _ (wfmap_mergeMap E I) (nodup_mergeMap E I)

theorem mergeValueAt_self_absorb (S : List Point) (k : Int) :
    mergeValueAt S (mergePoints S S) k = mergeValueAt S S k := by
  cases he : lastAt S k with
  | none =>
    have hS : ∀ p ∈ S, p.timestamp ≠ k := (lastAt_eq_none_iff S k).mp he
    have hSnil : S.filter (fun i => decide (i.timestamp = k)) = [] := by
      apply List.filter_eq_nil.mpr
      intro q hq
      simpa using hS q hq
    have hSS : mergeValueAt S S k = none := by
      rw [mergeValueAt, he, hSnil]
      rfl
    have hMnil : (mergePoints S S).filter (fun i => decide (i.timestamp = k)) = [] := by
      apply List.filter_eq_nil.mpr
      intro q hq
      simp only [decide_eq_true_eq]
      intro hqt
      have := (mem_mergePoints_iff S S q).mp hq
      rw [hqt, hSS] at this
      cases this
    rw [mergeValueAt, he, hMnil, hSS]
    rfl
  | some e =>
    have hets : e.timestamp = k := (lastAt_mem S k e he).2
    set fS := S.filter (fun i => decide (i.timestamp = k)) with hfS
    have hSS : mergeValueAt S S k = some (fS.foldl applyIncoming e) := by
      rw [mergeValueAt, he, ← hfS, foldl_stepO_some]
    set mk := fS.foldl applyIncoming e with hmk
    have hmkts : mk.timestamp = k := by
      rw [hmk, (foldl_applyIncoming_inv fS e).1, hets]
    have hmkmem : mk ∈ mergePoints S S := by
      rw [mem_mergePoints_iff, hmkts, hSS]
    have hMfilter : (mergePoints S S).filter (fun i => decide (i.timestamp = k)) = [mk] :=
      filter_ts_eq_singleton _ k mk (tsNodup_mergePoints S S) hmkmem hmkts
    rw [mergeValueAt, he, hMfilter]
    simp only [List.foldl_cons, List.foldl_nil]
    rw [show stepO (some e) mk = applyIncoming e mk from rfl, hmk,
      applyIncoming_absorb fS e, hSS]

/-! ### The parse map, pointwise -/

theorem wfmap_parseRow (m : List (Int × Point)) (row : RawRow) (h : WFmap m) :
    WFmap (parseRow m row) := by
  cases ht : row.timestamp with
  | none => simpa [parseRow, ht] using h
  | some ts =>
    cases hh : row.height with
    | none => simpa [parseRow, ht, hh] using h
    | some v =>
      simp only [parseRow, ht, hh]
      apply wfmap_setAssoc _ _ _ h
      have hbase : (((getAssoc m ts).getD
          { timestamp := ts, timestampIso := toISOString ts }) : Point).timestamp = ts := by
        cases hg : getAssoc m ts with
        | none => rfl
        | some w => simpa using h _ (getAssoc_mem m ts w hg)
      split
      · exact hbase
      · split
        · exact hbase
        · exact hbase

theorem nodup_parseRow (m : List (Int × Point)) (row : RawRow) (h : NoDupKeys m) :
    NoDupKeys (parseRow m row) := by
  cases ht : row.timestamp with
  | none => simpa [parseRow, ht] using h
  | some ts =>
    cases hh : row.height with
    | none => simpa [parseRow, ht, hh] using h
    | some v =>
      simp only [parseRow, ht, hh]
      exact nodupKeys_setAssoc _ _ _ h

theorem wfmap_parseMap (rows : List RawRow) : WFmap (parseMap rows) := by
  have haux : ∀ (rs : List RawRow) (m : List (Int × Point)), WFmap m →
      WFmap (rs.foldl parseRow m) := by
    intro rs
    induction rs with
    | nil => exact fun m h => h
    | cons r rest ih => exact fun m h => ih _ (wfmap_parseRow m r h)
  exact haux rows [] (fun e he => by simp at he)

theorem nodup_parseMap (rows : List RawRow) : NoDupKeys (parseMap rows) := by
  have haux : ∀ (rs : List RawRow) (m : List (Int × Point)), NoDupKeys m →
      NoDupKeys (rs.foldl parseRow m) := by
    intro rs
    induction rs with
    | nil => exact fun m h => h
    | cons r rest ih => exact fun m h => ih _ (nodup_parseRow m r h)
  exact haux rows [] (by simp [NoDupKeys])

theorem findAt_parseCsvToPoints (rows : List RawRow) (t : Int) :
    findAt (parseCsvToPoints rows) t = getAssoc (parseMap rows) t := by
  rw [parseCsvToPoints, findAt_eq_getAssoc _ t (wfmap_parseMap rows) (nodup_parseMap rows)]

theorem obsAt_parse (rows : List RawRow) (t : Int) :
    obsAt (parseCsvToPoints rows) t = (getAssoc (parseMap rows) t).bind Point.observed := by
  rw [obsAt, findAt_parseCsvToPoints]

theorem parseMap_append_single (rows : List RawRow) (r : RawRow) :
    parseMap (rows ++ [r]) = parseRow (parseMap rows) r := by
  simp [parseMap, List.foldl_append]

/-! ### Pointwise merge value under duplicate-free inputs -/

theorem lastAt_of_mem_tsNodup (l : List Point) (t : Int) (v : Point)
    (hnd : (l.map Point.timestamp).Nodup) (hmem : v ∈ l) (hts : v.timestamp = t) :
    lastAt l t = some v := by
  induction l with
  | nil => simp at hmem
  | cons p rest ih =>
    simp only [List.map_cons, List.nodup_cons] at hnd
    simp only [lastAt]
    by_cases hp : p.timestamp = t
    · have hv : v = p := by
        rcases List.mem_cons.mp hmem with h1 | h1
        · exact h1
        · exact absurd (List.mem_map.mpr ⟨v, h1, hts.trans hp.symm⟩) hnd.1
      subst hv
      have hrest : lastAt rest t = none := by
        apply (lastAt_eq_none_iff rest t).mpr
        intro q hq hqt
        exact hnd.1 (List.mem_map.mpr ⟨q, hq, hqt.trans hp.symm⟩)
      rw [hrest, if_pos hp]
    · have hv : v ∈ rest := by
        rcases List.mem_cons.mp hmem with h1 | h1
        · subst h1; exact absurd hts hp
        · exact h1
      rw [ih hnd.2 hv]

theorem lastAt_eq_findAt (E : List Point) (t : Int) (hE : NoDupTs E) :
    lastAt E t = findAt E t := by
  cases hf : findAt E t with
  | none =>
    apply (lastAt_eq_none_iff E t).mpr
    intro p hp
    have := List.find?_eq_none.mp hf p hp
    simpa using this
  | some v =>
    have hmem := List.mem_of_find?_eq_some hf
    have hts : v.timestamp = t := by simpa using List.find?_some hf
    exact lastAt_of_mem_tsNodup E t v hE hmem hts

theorem mergeValueAt_eq (E I : List Point) (t : Int)
    (hE : NoDupTs E) (hI : NoDupTs I) :
    mergeValueAt E I t =
      match findAt I t with
      | none => findAt E t
      | some i => some (stepO (findAt E t) i) := by
  rw [mergeValueAt, lastAt_eq_findAt E t hE]
  cases hi : findAt I t with
  | none =>
    have hnil : I.filter (fun i => decide (i.timestamp = t)) = [] := by
      apply List.filter_eq_nil.mpr
      intro q hq
      exact List.find?_eq_none.mp hi q hq
    rw [hnil]
    rfl
  | some i =>
    have hmem := List.mem_of_find?_eq_some hi
    have hts : i.timestamp = t := by simpa using List.find?_some hi
    rw [filter_ts_eq_singleton I t i hI hmem hts]
    rfl

theorem foldl_stepO_isSome (l : List Point) (o : Option Point) :
    (l.foldl (fun o i => some (stepO o i)) o).isSome = true ↔
      (o.isSome = true ∨ l ≠ []) := by
  cases l with
  | nil => simp
  | cons i rest =>
    simp only [List.foldl_cons]
    rw [foldl_stepO_some]
    simp

theorem mergeValueAt_isSome_iff (E I : List Point) (t : Int) :
    (mergeValueAt E I t).isSome = true ↔
      ((∃ p ∈ E, p.timestamp = t) ∨ (∃ p ∈ I, p.timestamp = t)) := by
  rw [mergeValueAt, foldl_stepO_isSome]
  constructor
  · intro h
    rcases h with h | h
    · left
      cases he : lastAt E t with
      | none => rw [he] at h; simp at h
      | some v =>
        obtain ⟨h1, h2⟩ := lastAt_mem E t v he
        exact ⟨v, h1, h2⟩
    · right
      cases hf : I.filter (fun i => decide (i.timestamp = t)) with
      | nil => exact absurd hf h
      | cons q rest =>
        have hq : q ∈ I.filter (fun i => decide (i.timestamp = t)) := by
          rw [hf]; exact List.mem_cons_self _ _
        have := List.mem_filter.mp hq
        exact ⟨q, this.1, by simpa using this.2⟩
  · intro h
    rcases h with ⟨p, hp, hpt⟩ | ⟨p, hp, hpt⟩
    · left
      cases he : lastAt E t with
      | none => exact absurd hpt ((lastAt_eq_none_iff E t).mp he p hp)
      | some v => simp
    · right
      intro hnil
      have := List.filter_eq_nil.mp hnil p hp
      simp [hpt] at this

theorem mergeValueAt_ts (E I : List Point) (t : Int) (v : Point)
    (h : mergeValueAt E I t = some v) : v.timestamp = t := by
  rw [← getAssoc_mergeMap] at h
  exact wfmap_mergeMap E I _ (getAssoc_mem _ t v h)

theorem exists_mem_mergePoints_iff (E I : List Point) (t : Int) :
    (∃ p ∈ mergePoints E I, p.timestamp = t) ↔ (mergeValueAt E I t).isSome = true := by
  constructor
  · rintro ⟨p, hp, hpt⟩
    have := (mem_mergePoints_iff E I p).mp hp
    rw [hpt] at this
    simp [this]
  · intro h
    cases hv : mergeValueAt E I t with
    | none => rw [hv] at h; simp at h
    | some v =>
      have hts := mergeValueAt_ts E I t v hv
      refine ⟨v, (mem_mergePoints_iff E I v).mpr ?_, hts⟩
      rw [hts]
      exact hv

/-! ### The status resolver -/

theorem foldl_closest_spec (now : Int) (l : List Point) (p : Point) :
    (l.foldl (fun prev curr =>
        if |curr.timestamp - now| < |prev.timestamp - now| then curr else prev) p = p ∨
      l.foldl (fun prev curr =>
        if |curr.timestamp - now| < |prev.timestamp - now| then curr else prev) p ∈ l) ∧
    |(l.foldl (fun prev curr =>
        if |curr.timestamp - now| < |prev.timestamp - now| then curr else prev) p).timestamp - now|
      ≤ |p.timestamp - now| ∧
    ∀ q ∈ l, |(l.foldl (fun prev curr =>
        if |curr.timestamp - now| < |prev.timestamp - now| then curr else prev) p).timestamp - now|
      ≤ |q.timestamp - now| := by
  induction l generalizing p with
  | nil => exact ⟨Or.inl rfl, le_refl _, fun q hq => by simp at hq⟩
  | cons q rest ih =>
    simp only [List.foldl_cons]
    set pn := if |q.timestamp - now| < |p.timestamp - now| then q else p with hpn
    obtain ⟨hm, hle, hall⟩ := ih pn
    have hpn_le_p : |pn.timestamp - now| ≤ |p.timestamp - now| := by
      rw [hpn]
      split
      · exact le_of_lt (by assumption)
      · exact le_refl _
    have hpn_le_q : |pn.timestamp - now| ≤ |q.timestamp - now| := by
      rw [hpn]
      split
      · exact le_refl _
      · exact le_of_not_lt (by assumption)
    refine ⟨?_, le_trans hle hpn_le_p, ?_⟩
    · rcases hm with hm | hm
      · rw [hm, hpn]
        split
        · exact Or.inr (List.mem_cons_self _ _)
        · exact Or.inl rfl
      · exact Or.inr (List.mem_cons_of_mem q hm)
    · intro r hr
      rcases List.mem_cons.mp hr with h1 | h1
      · subst h1
        exact le_trans hle hpn_le_q
      · exact hall r h1

theorem closestPoint_spec (now : Int) (points : List Point) (h : points ≠ []) :
    ∃ c, closestPoint now points = some c ∧ c ∈ points ∧
      ∀ q ∈ points, |c.timestamp - now| ≤ |q.timestamp - now| := by
  cases points with
  | nil => exact absurd rfl h
  | cons p rest =>
    obtain ⟨hm, hle, hall⟩ := foldl_closest_spec now rest p
    refine ⟨_, rfl, ?_, ?_⟩
    · rcases hm with hm | hm
      · rw [hm]; exact List.mem_cons_self _ _
      · exact List.mem_cons_of_mem p hm
    · intro q hq
      rcases List.mem_cons.mp hq with h1 | h1
      · subst h1; exact hle
      · exact hall q h1

/-! ## Claims -/

/-- C1, counterexample: the claim asserts that an existing forecast is never
overwritten by an incoming forecast (merging `{t: forecast=3.0}` with incoming
`{t: forecast=3.5}` should yield `{t: forecast=3.0}`). The code instead
overwrites: when the map entry has no observed value, the incoming-forecast
branch runs `cur.forecast = inc.forecast`, so the merge yields forecast 3.5. -/
theorem mergePoints_first_forecast_wins_cex :
    mergePoints [{ timestamp := 0, timestampIso := "t0", forecast := some 3 }]
        [{ timestamp := 0, timestampIso := "t0", forecast := some q35 }]
      = [{ timestamp := 0, timestampIso := "t0", forecast := some q35 }]
    ∧ q35 ≠ 3 :=
  ⟨by decide, by decide⟩

/-- C1, amended: what the incoming-forecast branch of `mergePoints` actually
does with an incoming forecast-only point at timestamp `t`. When the result
has no observed value at `t`, the incoming forecast is applied even if a
forecast already exists (last forecast wins, not first). When an observed
value exists at `t`, the incoming forecast is not dropped either: it is kept
whenever no forecast is present (the point keeps both fields); only when the
existing point has both an observed and a forecast value does the existing
forecast survive unchanged. -/
theorem mergePoints_incoming_forecast_behavior (E I : List Point) (t : Int)
    (i : Point) (f : ℚ) (hE : NoDupTs E) (hI : NoDupTs I)
    (hi : findAt I t = some i) (hio : i.observed = none) (hif : i.forecast = some f) :
    findAt (mergePoints E I) t = some (
      match findAt E t with
      | none => { timestamp := i.timestamp, timestampIso := i.timestampIso,
                  observed := none, forecast := some f }
      | some e =>
        if e.observed.isNone then { e with forecast := some f }
        else { e with forecast := e.forecast.orElse (fun _ => some f) } ) := by
  rw [findAt_mergePoints, mergeValueAt_eq E I t hE hI, hi]
  cases he : findAt E t with
  | none =>
    apply congrArg some
    apply Point.ext
    · rw [stepO, applyIncoming_timestamp]
      rfl
    · rw [stepO, applyIncoming_timestampIso]
      rfl
    · rw [stepO, applyIncoming_observed, if_neg (by simp [hio])]
      rfl
    · rw [stepO, applyIncoming_forecast_none_some _ i f hio hif,
        if_pos (by rfl)]
  | some e =>
    apply congrArg some
    show stepO (some e) i =
      if e.observed.isNone = true then { e with forecast := some f }
      else { e with forecast := e.forecast.orElse fun _ => some f }
    by_cases heo : e.observed.isNone
    · rw [if_pos heo]
      apply Point.ext
      · rw [stepO, applyIncoming_timestamp]
        rfl
      · rw [stepO, applyIncoming_timestampIso]
        rfl
      · rw [stepO, applyIncoming_observed, if_neg (by simp [hio])]
        rfl
      · rw [stepO, applyIncoming_forecast_none_some _ i f hio hif]
        simp only [Option.getD_some]
        rw [if_pos heo]
    · rw [if_neg heo]
      apply Point.ext
      · rw [stepO, applyIncoming_timestamp]
        rfl
      · rw [stepO, applyIncoming_timestampIso]
        rfl
      · rw [stepO, applyIncoming_observed, if_neg (by simp [hio])]
        rfl
      · rw [stepO, applyIncoming_forecast_none_some _ i f hio hif]
        simp only [Option.getD_some]
        rw [if_neg heo]

/-- C1, witness for the amended theorem: existing `{t: observed=1}` merged
with incoming `{t: forecast=3.5}` keeps the observed value and also picks up
the incoming forecast (both fields kept), exercising the observed-present
branch of the amended statement. -/
theorem mergePoints_incoming_forecast_behavior_witness :
    findAt (mergePoints [{ timestamp := 0, timestampIso := "a", observed := some 1 }]
        [{ timestamp := 0, timestampIso := "b", forecast := some q35 }]) 0
      = some { timestamp := 0, timestampIso := "a", observed := some 1,
               forecast := some q35 } :=
  (mergePoints_incoming_forecast_behavior
      [{ timestamp := 0, timestampIso := "a", observed := some 1 }]
      [{ timestamp := 0, timestampIso := "b", forecast := some q35 }] 0
      { timestamp := 0, timestampIso := "b", forecast := some q35 } q35
      (by decide) (by decide) (by decide) rfl rfl).trans (by decide)

/-- C2: when the incoming point at timestamp `t` carries an observed value,
the merge result's observed value at `t` is exactly the incoming observed
value (overwriting any existing observed or forecast-only state), and the
result's forecast field is exactly the incoming point's forecast field — in
particular any existing forecast at `t` is erased. -/
theorem mergePoints_incoming_observed_overwrites (E I : List Point) (t : Int)
    (i : Point) (v : ℚ) (hE : NoDupTs E) (hI : NoDupTs I)
    (hi : findAt I t = some i) (hobs : i.observed = some v) :
    ∃ p, findAt (mergePoints E I) t = some p ∧
      p.observed = some v ∧ p.forecast = i.forecast := by
  rw [findAt_mergePoints, mergeValueAt_eq E I t hE hI, hi]
  refine ⟨_, rfl, ?_, ?_⟩
  · rw [stepO, applyIncoming_observed, if_pos (by simp [hobs]), hobs]
  · rw [stepO, applyIncoming_forecast_of_observed _ i (by simp [hobs])]

/-- C2, witness: existing `{t: forecast=2}` merged with incoming
`{t: observed=2.5}` yields observed 2.5 with no forecast field. -/
theorem mergePoints_incoming_observed_overwrites_witness :
    ∃ p, findAt (mergePoints [{ timestamp := 0, timestampIso := "a", forecast := some 2 }]
        [{ timestamp := 0, timestampIso := "b", observed := some q25 }]) 0 = some p ∧
      p.observed = some q25 ∧ p.forecast = none := by
  obtain ⟨p, h1, h2, h3⟩ := mergePoints_incoming_observed_overwrites
    [{ timestamp := 0, timestampIso := "a", forecast := some 2 }]
    [{ timestamp := 0, timestampIso := "b", observed := some q25 }] 0
    { timestamp := 0, timestampIso := "b", observed := some q25 } q25
    (by decide) (by decide) (by decide) rfl
  exact ⟨p, h1, h2, h3⟩

/-- C3, counterexample: the claim asserts that an existing observed value is
never displaced by an incoming observed value at the same timestamp. The
code instead runs `cur.observed = inc.observed` unconditionally: merging
existing `{t: observed=1}` with incoming `{t: observed=1.5}` yields 1.5. -/
theorem mergePoints_existing_observed_wins_cex :
    mergePoints [{ timestamp := 0, timestampIso := "t0", observed := some 1 }]
        [{ timestamp := 0, timestampIso := "t0", observed := some q15 }]
      = [{ timestamp := 0, timestampIso := "t0", observed := some q15 }]
    ∧ q15 ≠ 1 :=
  ⟨by decide, by decide⟩

/-- C3, amended: an existing observed value survives the merge exactly when
the incoming batch carries no observed value at that timestamp (either no
incoming point at `t`, or an incoming point whose observed field is empty);
an incoming observed value always displaces it. -/
theorem mergePoints_existing_observed_survives (E I : List Point) (t : Int)
    (e : Point) (v : ℚ) (hE : NoDupTs E) (hI : NoDupTs I)
    (he : findAt E t = some e) (hobs : e.observed = some v)
    (hinc : ∀ i, findAt I t = some i → i.observed = none) :
    ∃ p, findAt (mergePoints E I) t = some p ∧ p.observed = some v := by
  rw [findAt_mergePoints, mergeValueAt_eq E I t hE hI]
  cases hi : findAt I t with
  | none => exact ⟨e, by rw [he], hobs⟩
  | some i =>
    have hio := hinc i hi
    rw [he]
    refine ⟨_, rfl, ?_⟩
    rw [stepO, applyIncoming_observed, if_neg (by simp [hio])]
    exact hobs

/-- C3, witness for the amended theorem: existing `{t: observed=1}` merged
with incoming `{t: forecast=3.5}` (no incoming observed) keeps observed 1. -/
theorem mergePoints_existing_observed_survives_witness :
    ∃ p, findAt (mergePoints [{ timestamp := 0, timestampIso := "a", observed := some 1 }]
        [{ timestamp := 0, timestampIso := "b", forecast := some q35 }]) 0 = some p ∧
      p.observed = some 1 := by
  obtain ⟨p, h1, h2⟩ := mergePoints_existing_observed_survives
    [{ timestamp := 0, timestampIso := "a", observed := some 1 }]
    [{ timestamp := 0, timestampIso := "b", forecast := some q35 }] 0
    { timestamp := 0, timestampIso := "a", observed := some 1 } 1
    (by decide) (by decide) (by decide) rfl (by decide)
  exact ⟨p, h1, h2⟩

/-- C4: for every pair of input sequences, the timestamps of the merge
output are exactly the union of the input timestamps, and the output is
sorted strictly ascending by timestamp (hence has no duplicate timestamps). -/
theorem mergePoints_union_and_sorted (existing incoming : List Point) :
    (∀ t : Int, (∃ p ∈ mergePoints existing incoming, p.timestamp = t) ↔
      ((∃ p ∈ existing, p.timestamp = t) ∨ (∃ p ∈ incoming, p.timestamp = t))) ∧
    List.Pairwise tsLt (mergePoints existing incoming) := by
  refine ⟨fun t => ?_, pairwise_lt_mergePoints existing incoming⟩
  rw [exists_mem_mergePoints_iff, mergeValueAt_isSome_iff]

/-- C5: merge is idempotent under self-merge: for every point sequence `S`,
`merge(S, merge(S, S)) = merge(S, S)`. -/
theorem mergePoints_self_merge_idempotent (S : List Point) :
    mergePoints S (mergePoints S S) = mergePoints S S := by
  apply eq_of_pairwise_lt_of_mem_iff _ _
    (pairwise_lt_mergePoints _ _) (pairwise_lt_mergePoints _ _)
  intro p
  rw [mem_mergePoints_iff, mem_mergePoints_iff, mergeValueAt_self_absorb]

/-- C6: for every non-empty point sequence, the status resolver selects the
point whose timestamp is closest (absolute difference) to the current
instant, taken from the entire point set; if that closest point is more than
four hours away the status is Unknown regardless of value (no value, not
unsafe); otherwise the representative value is the point's observed value if
present, else its forecast, and the status is unsafe exactly when that value
is strictly greater than the safe level, else safe. -/
theorem statusResolver_spec (points : List Point) (now : Int) (safeLevel : ℚ)
    (h : points ≠ []) :
    ∃ c, closestPoint now points = some c ∧ c ∈ points ∧
      (∀ q ∈ points, |c.timestamp - now| ≤ |q.timestamp - now|) ∧
      (|c.timestamp - now| > FOUR_HOURS_MS →
        currentStatusValue now points = none ∧
        statusText now points safeLevel = "Unknown" ∧
        isUnsafe now points safeLevel = false) ∧
      (¬ |c.timestamp - now| > FOUR_HOURS_MS →
        currentStatusValue now points = c.observed.orElse (fun _ => c.forecast) ∧
        ∀ v, c.observed.orElse (fun _ => c.forecast) = some v →
          ((safeLevel < v → isUnsafe now points safeLevel = true ∧
              statusText now points safeLevel = "Unsafe to row") ∧
           (¬ safeLevel < v → isUnsafe now points safeLevel = false ∧
              statusText now points safeLevel = "Safe to row"))) := by
  obtain ⟨c, hc, hmem, hmin⟩ := closestPoint_spec now points h
  refine ⟨c, hc, hmem, hmin, ?_, ?_⟩
  · intro hfar
    have hcsp : currentStatusPoint now points = none := by
      simp only [currentStatusPoint, hc]
      rw [if_pos hfar]
    have hval : currentStatusValue now points = none := by
      simp only [currentStatusValue, hcsp]
    exact ⟨hval, by simp [statusText, hval], by simp [isUnsafe, hval]⟩
  · intro hnear
    have hcsp : currentStatusPoint now points = some c := by
      simp only [currentStatusPoint, hc]
      rw [if_neg hnear]
    have hval : currentStatusValue now points = c.observed.orElse (fun _ => c.forecast) := by
      simp only [currentStatusValue, hcsp]
    refine ⟨hval, fun v hv => ?_⟩
    have hval2 : currentStatusValue now points = some v := hval.trans hv
    refine ⟨fun hlt => ?_, fun hnlt => ?_⟩
    · have hu : isUnsafe now points safeLevel = true := by
        simp [isUnsafe, hval2, hlt]
      exact ⟨hu, by simp [statusText, hval2, hu]⟩
    · have hu : isUnsafe now points safeLevel = false := by
        simp [isUnsafe, hval2, hnlt]
      exact ⟨hu, by simp [statusText, hval2, hu]⟩

/-- C6, witness: a single point three hours old with value 1.5 against safe
level 1.9 is within the staleness window and classifies as safe. -/
theorem statusResolver_spec_witness :
    ∃ c, closestPoint 0 [{ timestamp := -10800000, timestampIso := "a", observed := some q15 }] = some c ∧
      c ∈ [({ timestamp := -10800000, timestampIso := "a", observed := some q15 } : Point)] ∧
      (∀ q ∈ [({ timestamp := -10800000, timestampIso := "a", observed := some q15 } : Point)],
        |c.timestamp - 0| ≤ |q.timestamp - 0|) ∧
      (|c.timestamp - 0| > FOUR_HOURS_MS →
        currentStatusValue 0 [{ timestamp := -10800000, timestampIso := "a", observed := some q15 }] = none ∧
        statusText 0 [{ timestamp := -10800000, timestampIso := "a", observed := some q15 }] q19 = "Unknown" ∧
        isUnsafe 0 [{ timestamp := -10800000, timestampIso := "a", observed := some q15 }] q19 = false) ∧
      (¬ |c.timestamp - 0| > FOUR_HOURS_MS →
        currentStatusValue 0 [{ timestamp := -10800000, timestampIso := "a", observed := some q15 }]
          = c.observed.orElse (fun _ => c.forecast) ∧
        ∀ v, c.observed.orElse (fun _ => c.forecast) = some v →
          ((q19 < v → isUnsafe 0 [{ timestamp := -10800000, timestampIso := "a", observed := some q15 }] q19 = true ∧
              statusText 0 [{ timestamp := -10800000, timestampIso := "a", observed := some q15 }] q19 = "Unsafe to row") ∧
           (¬ q19 < v → isUnsafe 0 [{ timestamp := -10800000, timestampIso := "a", observed := some q15 }] q19 = false ∧
              statusText 0 [{ timestamp := -10800000, timestampIso := "a", observed := some q15 }] q19 = "Safe to row"))) :=
  statusResolver_spec [{ timestamp := -10800000, timestampIso := "a", observed := some q15 }] 0 q19 (by decide)

/-- C10: whenever the status resolver has no representative value — the
sequence is empty, or no point lies within four hours of the current
instant — the current value is null, the label is Unknown, and the unsafe
flag is false: the resolver never reports unsafe without a usable value
inside the staleness window. -/
theorem statusResolver_no_value_unknown (points : List Point) (now : Int) (safeLevel : ℚ)
    (h : points = [] ∨ ∀ p ∈ points, FOUR_HOURS_MS < |p.timestamp - now|) :
    currentStatusValue now points = none ∧
    statusText now points safeLevel = "Unknown" ∧
    isUnsafe now points safeLevel = false := by
  have hval : currentStatusValue now points = none := by
    rcases h with h | h
    · subst h
      rfl
    · by_cases hnil : points = []
      · subst hnil
        rfl
      · obtain ⟨c, hc, hmem, hmin⟩ := closestPoint_spec now points hnil
        have hfar : |c.timestamp - now| > FOUR_HOURS_MS := h c hmem
        simp only [currentStatusValue, currentStatusPoint, hc]
        rw [if_pos hfar]
  exact ⟨hval, by simp [statusText, hval], by simp [isUnsafe, hval]⟩

/-- C10, witness: a store whose only point is five hours old yields no
value, label Unknown and unsafe = false against safe level 1.9. -/
theorem statusResolver_no_value_unknown_witness :
    currentStatusValue 0 [{ timestamp := -18000000, timestampIso := "a", observed := some q15 }] = none ∧
    statusText 0 [{ timestamp := -18000000, timestampIso := "a", observed := some q15 }] q19 = "Unknown" ∧
    isUnsafe 0 [{ timestamp := -18000000, timestampIso := "a", observed := some q15 }] q19 = false :=
  statusResolver_no_value_unknown
    [{ timestamp := -18000000, timestampIso := "a", observed := some q15 }] 0 q19
    (Or.inr (by decide))

/-- C7: `prunePoints` keeps exactly the points whose timestamp is at least
`now - maxAgeMs` (the boundary point is retained, the comparison being
inclusive), and the success path of `doRefresh` stores and persists exactly
the merge result pruned with a maximum age of one year. -/
theorem prunePoints_spec :
    (∀ (now : Int) (pts : List Point) (maxAgeMs : Int) (p : Point),
      p ∈ prunePoints now pts maxAgeMs ↔ (p ∈ pts ∧ now - maxAgeMs ≤ p.timestamp)) ∧
    (∀ (now : Int) (st : ComponentState) (rows : List RawRow),
      (doRefresh now st (.ok rows)).points =
        prunePoints now (mergePoints st.points (parseCsvToPoints rows)) ONE_YEAR_MS ∧
      (doRefresh now st (.ok rows)).cache =
        some (prunePoints now (mergePoints st.points (parseCsvToPoints rows)) ONE_YEAR_MS)) := by
  constructor
  · intro now pts maxAgeMs p
    simp [prunePoints, List.mem_filter]
  · intro now st rows
    exact ⟨rfl, rfl⟩

/-- C7, witness: with `now` at exactly one year and the retention horizon of
one year, the boundary point with timestamp 0 (exactly at the cutoff) is
retained. -/
theorem prunePoints_spec_witness :
    ({ timestamp := 0, timestampIso := "a", observed := some 1 } : Point) ∈
      prunePoints ONE_YEAR_MS
        [{ timestamp := 0, timestampIso := "a", observed := some 1 }] ONE_YEAR_MS :=
  (prunePoints_spec.1 ONE_YEAR_MS
    [{ timestamp := 0, timestampIso := "a", observed := some 1 }] ONE_YEAR_MS
    { timestamp := 0, timestampIso := "a", observed := some 1 }).mpr
    ⟨by decide, by decide⟩

/-- C8, counterexample: the claim asserts that within a single parse pass a
later row sharing a timestamp and setting the observed value overwrites the
earlier one, and that a row with a missing or unrecognized type is treated
as an observed reading. Two rows with empty type fields at the same
timestamp are both treated as observed readings, yet the parser keeps the
first value (the default branch runs `existing.observed = existing.observed
?? height`), so the later row does not overwrite. -/
theorem parse_untyped_last_row_wins_cex :
    parseCsvToPoints [{ timestamp := some 0, height := some 1, type := some "" },
        { timestamp := some 0, height := some 2, type := some "" }]
      = [{ timestamp := 0, timestampIso := toISOString 0, observed := some 1 }]
    ∧ (1 : ℚ) ≠ 2 :=
  ⟨by decide, by decide⟩

/-- C8, amended: within a single parse pass, a later row whose type field
normalizes (trimmed, lowercased) to `observed` does overwrite any earlier
observed value at the same timestamp; a row whose type is missing or
unrecognized is still treated as an observed reading rather than discarded,
but it only fills in the observed value when no earlier row in the batch has
set one (first row wins for untyped rows). -/
theorem parse_coalescing_behavior (rows : List RawRow) (ts : Int) (h : ℚ) (ty : String) :
    (jsToLower (jsTrim ty) = "observed" →
      obsAt (parseCsvToPoints
        (rows ++ [{ timestamp := some ts, height := some h, type := some ty }])) ts = some h)
    ∧ (jsToLower (jsTrim ty) ≠ "observed" → jsToLower (jsTrim ty) ≠ "forecast" →
      obsAt (parseCsvToPoints
        (rows ++ [{ timestamp := some ts, height := some h, type := some ty }])) ts =
        (obsAt (parseCsvToPoints rows) ts).orElse (fun _ => some h)) := by
  have hmap := parseMap_append_single rows { timestamp := some ts, height := some h, type := some ty }
  constructor
  · intro hty
    rw [obsAt_parse, hmap]
    simp only [parseRow, Option.getD_some]
    rw [if_pos hty, getAssoc_setAssoc, if_pos rfl]
    rfl
  · intro h1 h2
    rw [obsAt_parse, obsAt_parse, hmap]
    simp only [parseRow, Option.getD_some]
    rw [if_neg h1, if_neg h2, getAssoc_setAssoc, if_pos rfl]
    cases hg : getAssoc (parseMap rows) ts with
    | none => simp [Option.orElse]
    | some w =>
      cases hw : w.observed <;> simp [Option.orElse, hw]

/-- C8, witness for the amended theorem: an explicit `observed` row
overwrites an earlier untyped row at the same timestamp, while a second
untyped row does not overwrite the first one (it only fills a gap). -/
theorem parse_coalescing_behavior_witness :
    (obsAt (parseCsvToPoints ([{ timestamp := some 0, height := some 1, type := some "" }] ++
        [{ timestamp := some 0, height := some 2, type := some "observed" }])) 0 = some 2) ∧
    (obsAt (parseCsvToPoints ([{ timestamp := some 0, height := some 1, type := some "" }] ++
        [{ timestamp := some 0, height := some 2, type := some "" }])) 0 =
      (obsAt (parseCsvToPoints [{ timestamp := some 0, height := some 1, type := some "" }]) 0).orElse
        (fun _ => some 2)) :=
  ⟨(parse_coalescing_behavior [{ timestamp := some 0, height := some 1, type := some "" }]
      0 2 "observed").1 (by decide),
   (parse_coalescing_behavior [{ timestamp := some 0, height := some 1, type := some "" }]
      0 2 "").2 (by decide) (by decide)⟩

/-- C9: a refresh whose fetch fails (network error or non-success response
status) sets an explicit error state and leaves both the in-memory point
store and the persisted cache exactly as they were. -/
theorem doRefresh_failure_preserves_store (now : Int) (st : ComponentState) (msg : String) :
    (doRefresh now st (.failure msg)).points = st.points ∧
    (doRefresh now st (.failure msg)).cache = st.cache ∧
    (doRefresh now st (.failure msg)).error = some msg :=
  ⟨rfl, rfl, rfl⟩

end River
